import Mathlib

/-!
# A verification development of the `undo-redo` drawing undo/redo service

Shallow embedding of `src/drawing-action.ts` and `src/undo-service.ts`.

Modelling conventions:
* A JavaScript entity object is modelled as an `entityId : String` together
  with its own enumerable properties, `Fields := List (String × Int)`, kept
  in insertion order (as JavaScript objects do).
* Entities are mutated in place through shared pointers; we model the drawing
  as a `Heap : String → Fields` mapping each entity id to its current fields.
* `cloneState` produces a fresh object; JavaScript `!==` on two objects
  compares references, never values.  We therefore tag every captured
  snapshot with an allocation number `ref` drawn from a counter threaded
  through the service, and `!==` compares the tags.
* `Object.assign(target, src)` copies each own enumerable property of `src`
  onto `target` in order, overwriting existing keys in place and appending
  new ones; `Object.assign(target, undefined)` is a no-op.
* The optional host callbacks `createRequested` / `deleteRequested` are
  modelled as an emitted event list.
* In-place mutation through a pointer obtained by `find` (in `store`) or by
  indexing a filtered array (in `undoLast` / `redoLast`) is rendered as a
  positional update of the unique corresponding element of the backing array.
-/

namespace UndoRedo

/-- `UndoStateEnum` from `undo-state-enum.ts`. -/
inductive UndoStateEnum where
  | pending
  | restored
  | undone
deriving DecidableEq, Repr

/-- `UndoCUDOpEnum` from `undo-cud-op-enum.ts`. -/
inductive UndoCUDOpEnum where
  | update
  | create
  | delete
deriving DecidableEq, Repr

/-- Own enumerable properties of a JavaScript object, in insertion order. -/
abbrev Fields := List (String × Int)

/-- The key list of an object, in property order. -/
def keysOf (fs : Fields) : List String := fs.map Prod.fst

/-- JavaScript property write `target[k] = v`: overwrite in place if the key
exists, append otherwise. -/
def setProp (fs : Fields) (k : String) (v : Int) : Fields :=
  if fs.any (fun p => p.1 == k) then
    fs.map (fun p => if p.1 == k then (p.1, v) else p)
  else
    fs ++ [(k, v)]

/-- `Object.assign(target, src)`: copy each own enumerable property of `src`
onto `target`, in order. -/
def objectAssign (target src : Fields) : Fields :=
  src.foldl (fun t p => setProp t p.1 p.2) target

/-- First value stored under key `k`. -/
def lookupVal (k : String) : Fields → Option Int
  | [] => none
  | (k', v) :: rest => if k' == k then some v else lookupVal k rest

/-- A captured snapshot: the cloned field values plus the allocation tag that
stands for the clone's object identity. -/
structure Snapshot where
  ref : Nat
  val : Fields
deriving DecidableEq, Repr

/-- `cloneState` from `drawing-action.ts`: produce a fresh object holding the
entity's current field values.  The counter provides the fresh identity. -/
def cloneState (ctr : Nat) (fs : Fields) : Snapshot × Nat :=
  (⟨ctr, fs⟩, ctr + 1)

/-- JavaScript `!==` on the two (possibly `undefined`) state slots of a
`DrawingAction`: `undefined !== undefined` is `false`; two objects are `!==`
exactly when they are distinct allocations. -/
def jsNeqSnap : Option Snapshot → Option Snapshot → Bool
  | none, none => false
  | some a, some b => a.ref != b.ref
  | _, _ => true

/-- The `DrawingAction` class from `drawing-action.ts`.  The `entity` pointer
is represented by the tracked entity's id; its live fields live in the heap. -/
structure DrawingAction where
  entityId : String
  prevState : Option Snapshot
  nextState : Option Snapshot
  status : UndoStateEnum
  cudOp : UndoCUDOpEnum
deriving DecidableEq, Repr

/-- The `DrawingAction` constructor: record the entity and operation kind and
capture `prevState` as a clone of the entity's current fields. -/
def DrawingAction.make (ctr : Nat) (e : String) (fs : Fields)
    (cudOp : UndoCUDOpEnum) : DrawingAction × Nat :=
  let (snap, ctr') := cloneState ctr fs
  (⟨e, some snap, none, UndoStateEnum.pending, cudOp⟩, ctr')

/-- `DrawingAction.store(e)`: capture `nextState` as a clone of `e`'s current
fields, set the status to `restored`, and return
`this.prevState !== this.nextState` (a reference comparison). -/
def DrawingAction.storeM (a : DrawingAction) (fs : Fields) (ctr : Nat) :
    DrawingAction × Bool × Nat :=
  let (snap, ctr') := cloneState ctr fs
  let a' : DrawingAction :=
    { a with nextState := some snap, status := UndoStateEnum.restored }
  (a', jsNeqSnap a'.prevState a'.nextState, ctr')

/-- The drawing: each entity id's current own fields. -/
abbrev Heap := String → Fields

/-- Overwrite one entity's fields in the drawing. -/
def updateHeap (h : Heap) (e : String) (fs : Fields) : Heap :=
  fun e' => if e' = e then fs else h e'

/-- `DrawingAction.switchState(status)`: `Object.assign` the entity with
`prevState`, swap the two state slots and set the status.  Returns the updated
action and the updated drawing. -/
def DrawingAction.switchStateM (a : DrawingAction) (h : Heap)
    (st : UndoStateEnum) : DrawingAction × Heap :=
  let cur := h a.entityId
  let cur' := match a.prevState with
    | some snap => objectAssign cur snap.val
    | none => cur
  (⟨a.entityId, a.nextState, a.prevState, st, a.cudOp⟩,
    updateHeap h a.entityId cur')

/-- A host callback invocation: `createRequested(entity)` carries the entity
pointer (its id and current fields), `deleteRequested(id)` carries the id. -/
inductive Event where
  | createReq (id : String) (fields : Fields)
  | deleteReq (id : String)
deriving DecidableEq, Repr

/-- The `UndoService` class state: the committed `actions` array, the staged
`pending` array, the configured bound, plus the allocation counter for
snapshot identities. -/
structure UndoService where
  actions : List DrawingAction
  pending : List DrawingAction
  maxActions : Int
  nextRef : Nat
deriving Repr

/-- The `UndoService` constructor. -/
def UndoService.make (maxActions : Int) : UndoService :=
  ⟨[], [], maxActions, 0⟩

/-- `checkMax`: after an append, drop the oldest action (`slice(1)`) when the
length exceeds `maxActions`. -/
def UndoService.checkMax (s : UndoService) : UndoService :=
  if s.maxActions < (s.actions.length : Int) then
    { s with actions := s.actions.drop 1 }
  else s

/-- `storeAction`: push onto `actions`, then enforce the bound. -/
def UndoService.storeAction (s : UndoService) (a : DrawingAction) : UndoService :=
  UndoService.checkMax { s with actions := s.actions ++ [a] }

/-- One iteration of the `forEach` in `start`. -/
def UndoService.startOne (s : UndoService) (h : Heap) (cudOp : UndoCUDOpEnum)
    (e : String) : UndoService :=
  let (a, c1) := DrawingAction.make s.nextRef e (h e) cudOp
  if cudOp ≠ UndoCUDOpEnum.update then
    let (a', _, c2) := DrawingAction.storeM a (h e) c1
    UndoService.storeAction { s with nextRef := c2 } a'
  else
    { s with pending := s.pending ++ [a], nextRef := c1 }

/-- `start(es, cudOp)`: stage one new `DrawingAction` per entity; create and
delete actions are completed and committed immediately. -/
def UndoService.start (s : UndoService) (h : Heap) (es : List String)
    (cudOp : UndoCUDOpEnum) : UndoService :=
  es.foldl (fun acc e => UndoService.startOne acc h cudOp e) s

/-- Replace the first element satisfying `p` (in-place mutation through the
pointer returned by `find`). -/
def replaceFirst {α : Type} (p : α → Bool) (b : α) : List α → List α
  | [] => []
  | a :: as => if p a then b :: as else a :: replaceFirst p b as

/-- One iteration of the `forEach` in `store`: look the entity up in
`pending`; if found, complete the action and, when `store` reported a change,
commit it. -/
def UndoService.storeOne (s : UndoService) (h : Heap) (e : String) : UndoService :=
  match s.pending.find? (fun x => x.entityId == e) with
  | none => s
  | some a =>
    let (a', chg, c') := DrawingAction.storeM a (h e) s.nextRef
    let s' := { s with
      nextRef := c'
      pending := replaceFirst (fun x => x.entityId == e) a' s.pending }
    if chg then UndoService.storeAction s' a' else s'

/-- `store(es)`: complete and commit the changed staged actions, then clear
the staging array. -/
def UndoService.store (s : UndoService) (h : Heap) (es : List String) : UndoService :=
  let s' := es.foldl (fun acc e => UndoService.storeOne acc h e) s
  { s' with pending := [] }

/-- `abort()`: clear the staging array, touching nothing else. -/
def UndoService.abort (s : UndoService) : UndoService :=
  { s with pending := [] }

/-- `clear()`: drop both arrays. -/
def UndoService.clear (s : UndoService) : UndoService :=
  { s with pending := [], actions := [] }

/-- The filter predicate used by `able`: when a non-empty id list is given,
keep actions on those entities with the wanted status, otherwise keep every
action with the wanted status. -/
def ablePred (status : UndoStateEnum) (ids : Option (List String))
    (x : DrawingAction) : Bool :=
  match ids with
  | some l =>
    if 0 < l.length then l.contains x.entityId && x.status == status
    else x.status == status
  | none => x.status == status

/-- `able(status, ids?)` from `undo-service.ts`. -/
def UndoService.able (s : UndoService) (status : UndoStateEnum)
    (ids : Option (List String)) : List DrawingAction :=
  match ids with
  | some l =>
    if 0 < l.length then
      s.actions.filter (fun x => l.contains x.entityId && x.status == status)
    else
      s.actions.filter (fun x => x.status == status)
  | none => s.actions.filter (fun x => x.status == status)

/-- Decompose a list around the LAST element satisfying `p`:
`some (pre, x, post)` with the original list `pre ++ x :: post`, `p x` true
and no match in `post`. -/
def splitLastMatching {α : Type} (p : α → Bool) : List α → Option (List α × α × List α)
  | [] => none
  | a :: as =>
    match splitLastMatching p as with
    | some (l, x, r) => some (a :: l, x, r)
    | none => if p a then some ([], a, as) else none

/-- Decompose a list around the FIRST element satisfying `p`. -/
def splitFirstMatching {α : Type} (p : α → Bool) : List α → Option (List α × α × List α)
  | [] => none
  | a :: as =>
    if p a then some ([], a, as)
    else
      match splitFirstMatching p as with
      | some (l, x, r) => some (a :: l, x, r)
      | none => none

/-- `undoLast(ids?)`: take the last `restored` action of the filtered view
(a pointer into `actions`); fire the host callback dictated by its operation
kind; then `undo()` it in place. -/
def UndoService.undoLast (s : UndoService) (h : Heap)
    (ids : Option (List String)) : UndoService × Heap × List Event :=
  match splitLastMatching (ablePred UndoStateEnum.restored ids) s.actions with
  | none => (s, h, [])
  | some (pre, last, post) =>
    let evs : List Event :=
      match last.cudOp with
      | UndoCUDOpEnum.create => [Event.deleteReq last.entityId]
      | UndoCUDOpEnum.delete => [Event.createReq last.entityId (h last.entityId)]
      | UndoCUDOpEnum.update => []
    let (last', h') := DrawingAction.switchStateM last h UndoStateEnum.undone
    ({ s with actions := pre ++ last' :: post }, h', evs)

/-- `redoLast(ids?)`: take the first `undone` action of the filtered view;
fire the callback with the polarity swapped relative to undo; `redo()` it. -/
def UndoService.redoLast (s : UndoService) (h : Heap)
    (ids : Option (List String)) : UndoService × Heap × List Event :=
  match splitFirstMatching (ablePred UndoStateEnum.undone ids) s.actions with
  | none => (s, h, [])
  | some (pre, first, post) =>
    let evs : List Event :=
      match first.cudOp with
      | UndoCUDOpEnum.create => [Event.createReq first.entityId (h first.entityId)]
      | UndoCUDOpEnum.delete => [Event.deleteReq first.entityId]
      | UndoCUDOpEnum.update => []
    let (first', h') := DrawingAction.switchStateM first h UndoStateEnum.restored
    ({ s with actions := pre ++ first' :: post }, h', evs)

/-- A host-observable operation on the service: the public methods, plus a
host edit of an entity's fields between `start` and `store`. -/
inductive Op where
  | start (es : List String) (cudOp : UndoCUDOpEnum)
  | commit (es : List String)
  | abortOp
  | clearOp
  | undo (ids : Option (List String))
  | redo (ids : Option (List String))
  | modify (e : String) (fs : Fields)

/-- One operation applied to the service and the drawing. -/
def stepOp : UndoService × Heap → Op → (UndoService × Heap) × List Event
  | (s, h), Op.start es k => ((UndoService.start s h es k, h), [])
  | (s, h), Op.commit es => ((UndoService.store s h es, h), [])
  | (s, h), Op.abortOp => ((UndoService.abort s, h), [])
  | (s, h), Op.clearOp => ((UndoService.clear s, h), [])
  | (s, h), Op.undo ids =>
    let r := UndoService.undoLast s h ids
    ((r.1, r.2.1), r.2.2)
  | (s, h), Op.redo ids =>
    let r := UndoService.redoLast s h ids
    ((r.1, r.2.1), r.2.2)
  | (s, h), Op.modify e fs => ((s, updateHeap h e fs), [])

/-- Run a sequence of operations, discarding the emitted events. -/
def runOps (sh : UndoService × Heap) : List Op → UndoService × Heap
  | [] => sh
  | op :: ops => runOps (stepOp sh op).1 ops

/-- Repeated commits through `storeAction` (the single code path by which a
record ever reaches `actions`). -/
def storeMany (s : UndoService) (l : List DrawingAction) : UndoService :=
  l.foldl UndoService.storeAction s

/-! ### Concrete scenarios -/

/-- A drawing where every entity has the single field `x = 1`. -/
def heapOne : Heap := fun _ => [("x", 1)]

/-- Begin and immediately commit an update of entity `a` without touching it. -/
def unchangedRun : UndoService :=
  UndoService.store
    (UndoService.start (UndoService.make 10) heapOne ["a"] UndoCUDOpEnum.update)
    heapOne ["a"]

/-- A two-entity drawing: `A` starts at `x = 0`, every other id at `x = 10`. -/
def heapAB : Heap := fun e => if e = "A" then [("x", 0)] else [("x", 10)]

/-- Commit one update for `A` (`x: 0 ↦ 1`) and one for `B` (`x: 10 ↦ 11`),
then selectively undo `A`.  Afterwards `A`'s record is `undone` while `B`'s is
still `restored`, so the statuses interleave. -/
def interleavedRun : UndoService × Heap :=
  runOps (UndoService.make 10, heapAB)
    [Op.start ["A"] UndoCUDOpEnum.update, Op.modify "A" [("x", 1)],
     Op.commit ["A"],
     Op.start ["B"] UndoCUDOpEnum.update, Op.modify "B" [("x", 11)],
     Op.commit ["B"],
     Op.undo (some ["A"])]

/-- `interleavedRun` followed by the pair `undoLast(); redoLast()`. -/
def interleavedRoundTrip : UndoService × Heap :=
  runOps interleavedRun [Op.undo none, Op.redo none]

/-- A single committed update record of entity `a` (`x: 0 ↦ 1`). -/
def wAct : DrawingAction :=
  ⟨"a", some ⟨0, [("x", 0)]⟩, some ⟨1, [("x", 1)]⟩,
    UndoStateEnum.restored, UndoCUDOpEnum.update⟩

/-- A service holding just `wAct`. -/
def wSvc : UndoService := ⟨[wAct], [], 10, 2⟩

/-- Six identical update records, for exercising the history bound. -/
def wActs6 : List DrawingAction :=
  List.replicate 6
    (⟨"r", none, none, UndoStateEnum.restored, UndoCUDOpEnum.update⟩ : DrawingAction)

/-- A single committed update record of entity `b`. -/
def wAct4 : DrawingAction :=
  ⟨"b", some ⟨0, [("y", 2)]⟩, some ⟨1, [("y", 3)]⟩,
    UndoStateEnum.restored, UndoCUDOpEnum.update⟩

/-- A service holding just `wAct4`. -/
def wSvc4 : UndoService := ⟨[wAct4], [], 10, 2⟩

/-- A committed create record of entity `c`. -/
def wAct5 : DrawingAction :=
  ⟨"c", some ⟨0, []⟩, some ⟨1, []⟩,
    UndoStateEnum.restored, UndoCUDOpEnum.create⟩

/-- A service holding just `wAct5`. -/
def wSvc5 : UndoService := ⟨[wAct5], [], 5, 2⟩

/-- Committed update record of entity `A` (`x: 0 ↦ 1`). -/
def wRa : DrawingAction :=
  ⟨"A", some ⟨0, [("x", 0)]⟩, some ⟨1, [("x", 1)]⟩,
    UndoStateEnum.restored, UndoCUDOpEnum.update⟩

/-- Committed update record of entity `B` (`x: 10 ↦ 11`). -/
def wRb : DrawingAction :=
  ⟨"B", some ⟨2, [("x", 10)]⟩, some ⟨3, [("x", 11)]⟩,
    UndoStateEnum.restored, UndoCUDOpEnum.update⟩

/-- A service holding `wRa` then `wRb`. -/
def wSvc7 : UndoService := ⟨[wRa, wRb], [], 10, 4⟩

/-- The matching drawing: `A` at `x = 1`, every other id at `x = 11`. -/
def wHeap7 : Heap := fun e => if e = "A" then [("x", 1)] else [("x", 11)]

/-- The record that `begin(["a"], create)` commits when every field of `a`
reads `x = 1`. -/
def wC10act : DrawingAction :=
  ⟨"a", some ⟨0, [("x", 1)]⟩, some ⟨1, [("x", 1)]⟩,
    UndoStateEnum.restored, UndoCUDOpEnum.create⟩

/-! ### Helper lemmas -/

theorem updateHeap_same (h : Heap) (e : String) (fs : Fields) :
    updateHeap h e fs e = fs := by
  simp [updateHeap]

theorem updateHeap_other (h : Heap) (e e' : String) (fs : Fields)
    (hne : e' ≠ e) : updateHeap h e fs e' = h e' := by
  simp [updateHeap, hne]

theorem updateHeap_updateHeap (h : Heap) (e : String) (a b : Fields) :
    updateHeap (updateHeap h e a) e b = updateHeap h e b := by
  funext e'
  by_cases hc : e' = e <;> simp [updateHeap, hc]

theorem updateHeap_self (h : Heap) (e : String) (fs : Fields)
    (hfs : h e = fs) : updateHeap h e fs = h := by
  funext e'
  by_cases hc : e' = e <;> simp [updateHeap, hc, hfs]

theorem ablePred_status {status : UndoStateEnum} {ids : Option (List String)}
    {a : DrawingAction} (hp : ablePred status ids a = true) :
    a.status = status := by
  cases ids with
  | none => simpa [ablePred] using hp
  | some l =>
    by_cases hl : 0 < l.length
    · simp only [ablePred, if_pos hl, Bool.and_eq_true, beq_iff_eq] at hp
      exact hp.2
    · simpa [ablePred, if_neg hl] using hp

theorem able_eq_filter (s : UndoService) (status : UndoStateEnum)
    (ids : Option (List String)) :
    UndoService.able s status ids = s.actions.filter (ablePred status ids) := by
  cases ids with
  | none => rfl
  | some l =>
    simp only [UndoService.able]
    by_cases hl : 0 < l.length
    · rw [if_pos hl]
      exact List.filter_congr (fun x _ => by simp [ablePred, hl])
    · rw [if_neg hl]
      exact List.filter_congr (fun x _ => by simp [ablePred, hl])

theorem splitLastMatching_eq_none {α : Type} {p : α → Bool} :
    ∀ {l : List α}, splitLastMatching p l = none ↔ l.filter p = [] := by
  intro l
  induction l with
  | nil => simp [splitLastMatching]
  | cons a as ih =>
    cases hs : splitLastMatching p as with
    | some t =>
      have hne : as.filter p ≠ [] := by
        intro hnil
        rw [← ih] at hnil
        rw [hs] at hnil
        exact Option.noConfusion hnil
      constructor
      · intro habs
        simp [splitLastMatching, hs] at habs
      · intro hfil
        by_cases hpa : p a
        · simp [List.filter_cons_of_pos hpa] at hfil
        · rw [List.filter_cons_of_neg hpa] at hfil
          exact absurd hfil hne
    | none =>
      have hfil : as.filter p = [] := ih.mp hs
      by_cases hpa : p a
      · constructor
        · intro habs
          simp [splitLastMatching, hs, hpa] at habs
        · intro hc
          simp [List.filter_cons_of_pos hpa] at hc
      · constructor
        · intro _
          rw [List.filter_cons_of_neg hpa]
          exact hfil
        · intro _
          simp [splitLastMatching, hs, hpa]

theorem splitLastMatching_spec {α : Type} {p : α → Bool} :
    ∀ {l : List α} {pre post : List α} {x : α},
      splitLastMatching p l = some (pre, x, post) →
      l = pre ++ x :: post ∧ p x = true ∧ ∀ a ∈ post, p a = false := by
  intro l
  induction l with
  | nil => intro pre post x h; simp [splitLastMatching] at h
  | cons a as ih =>
    intro pre post x h
    cases hs : splitLastMatching p as with
    | some t =>
      obtain ⟨l₁, y, r₁⟩ := t
      rw [splitLastMatching, hs] at h
      simp only [Option.some.injEq, Prod.mk.injEq] at h
      obtain ⟨hpre, hx, hpost⟩ := h
      obtain ⟨heq, hpy, hr⟩ := ih hs
      subst hpre hx hpost
      exact ⟨by rw [heq, List.cons_append], hpy, hr⟩
    | none =>
      rw [splitLastMatching, hs] at h
      by_cases hpa : p a
      · rw [if_pos hpa] at h
        simp only [Option.some.injEq, Prod.mk.injEq] at h
        obtain ⟨hpre, hx, hpost⟩ := h
        subst hpre hx hpost
        refine ⟨rfl, hpa, ?_⟩
        intro b hb
        have := splitLastMatching_eq_none.mp hs
        have := List.filter_eq_nil_iff.mp this b hb
        simpa using this
      · rw [if_neg hpa] at h
        exact Option.noConfusion h

theorem filter_getLast_of_splitLast {α : Type} {p : α → Bool}
    {l pre post : List α} {x : α}
    (h : splitLastMatching p l = some (pre, x, post)) :
    (l.filter p).getLast? = some x := by
  obtain ⟨heq, hpx, hpost⟩ := splitLastMatching_spec h
  have hfp : post.filter p = [] :=
    List.filter_eq_nil_iff.mpr (fun a ha => by simp [hpost a ha])
  rw [heq, List.filter_append, List.filter_cons_of_pos hpx, hfp]
  exact List.getLast?_concat _

theorem splitFirstMatching_eq_none {α : Type} {p : α → Bool} :
    ∀ {l : List α}, splitFirstMatching p l = none ↔ l.filter p = [] := by
  intro l
  induction l with
  | nil => simp [splitFirstMatching]
  | cons a as ih =>
    by_cases hpa : p a
    · constructor
      · intro habs; simp [splitFirstMatching, hpa] at habs
      · intro hc; simp [List.filter_cons_of_pos hpa] at hc
    · rw [List.filter_cons_of_neg hpa]
      rw [splitFirstMatching, if_neg hpa]
      cases hs : splitFirstMatching p as with
      | some t =>
        obtain ⟨l₁, y, r₁⟩ := t
        have : as.filter p ≠ [] := by
          intro hnil
          rw [← ih] at hnil
          rw [hs] at hnil
          exact Option.noConfusion hnil
        simp only [iff_false, this]
        intro habs
        exact Option.noConfusion habs
      | none => simpa using ih.mp hs

theorem splitFirstMatching_spec {α : Type} {p : α → Bool} :
    ∀ {l : List α} {pre post : List α} {x : α},
      splitFirstMatching p l = some (pre, x, post) →
      l = pre ++ x :: post ∧ p x = true ∧ ∀ a ∈ pre, p a = false := by
  intro l
  induction l with
  | nil => intro pre post x h; simp [splitFirstMatching] at h
  | cons a as ih =>
    intro pre post x h
    rw [splitFirstMatching] at h
    by_cases hpa : p a
    · rw [if_pos hpa] at h
      simp only [Option.some.injEq, Prod.mk.injEq] at h
      obtain ⟨hpre, hx, hpost⟩ := h
      subst hpre hx hpost
      exact ⟨rfl, hpa, by simp⟩
    · rw [if_neg hpa] at h
      cases hs : splitFirstMatching p as with
      | some t =>
        obtain ⟨l₁, y, r₁⟩ := t
        rw [hs] at h
        simp only [Option.some.injEq, Prod.mk.injEq] at h
        obtain ⟨hpre, hx, hpost⟩ := h
        obtain ⟨heq, hpy, hl⟩ := ih hs
        subst hpre hx hpost
        refine ⟨by rw [heq, List.cons_append], hpy, ?_⟩
        intro b hb
        rcases List.mem_cons.mp hb with hb | hb
        · subst hb; exact Bool.eq_false_iff.mpr hpa
        · exact hl b hb
      | none => rw [hs] at h; exact Option.noConfusion h

theorem filter_head_of_splitFirst {α : Type} {p : α → Bool}
    {l pre post : List α} {x : α}
    (h : splitFirstMatching p l = some (pre, x, post)) :
    (l.filter p).head? = some x := by
  obtain ⟨heq, hpx, hpre⟩ := splitFirstMatching_spec h
  have hfp : pre.filter p = [] :=
    List.filter_eq_nil_iff.mpr (fun a ha => by simp [hpre a ha])
  rw [heq, List.filter_append, List.filter_cons_of_pos hpx, hfp]
  rfl

theorem splitFirstMatching_append {α : Type} {p : α → Bool}
    {pre post : List α} {x : α}
    (hpre : ∀ a ∈ pre, p a = false) (hpx : p x = true) :
    splitFirstMatching p (pre ++ x :: post) = some (pre, x, post) := by
  induction pre with
  | nil => simp [splitFirstMatching, hpx]
  | cons a as ih =>
    have hpa : p a = false := hpre a (by simp)
    have ihs := ih (fun b hb => hpre b (by simp [hb]))
    rw [List.cons_append, splitFirstMatching, if_neg (by simp [hpa]), ihs]

/-! ### Claim theorems -/

/-- C1: the claim says that `DrawingAction.store` returns whether the new
snapshot differs from the prior snapshot BY VALUE, so that committing an
entity whose fields are unchanged between `begin` and `commit` adds no record.
The code instead compares the two snapshots with `!==`, a reference
comparison, and the two independently captured clones are always distinct
allocations: at the failing input (entity `a` with fields `x = 1`, begun and
committed without any modification) the commit still appends a record whose
two snapshots are structurally equal. -/
theorem unchanged_commit_appends_record :
    unchangedRun.actions.length = 1 ∧
    unchangedRun.actions.map (fun a => a.prevState.map Snapshot.val) =
      unchangedRun.actions.map (fun a => a.nextState.map Snapshot.val) :=
  ⟨rfl, rfl⟩

/-- C2 (counterexample): after a selective undo of `A` the committed log is
`[A ↦ undone, B ↦ restored]`.  `B`'s record is a committed update whose
entity holds the record's later-state field values (`x = 11`), yet
`undoLast()` followed immediately by `redoLast()` leaves `B` at `x = 10`:
the undo acts on the LAST `restored` record (`B`) while the redo acts on the
FIRST `undone` record (`A`), so the pair is not an identity. -/
theorem undo_redo_pair_not_identity :
    interleavedRun.1.actions.map (fun a => (a.entityId, a.status, a.cudOp)) =
      [("A", UndoStateEnum.undone, UndoCUDOpEnum.update),
       ("B", UndoStateEnum.restored, UndoCUDOpEnum.update)] ∧
    interleavedRun.1.actions.map (fun a => a.nextState.map Snapshot.val) =
      [some [("x", 0)], some [("x", 11)]] ∧
    interleavedRun.2 "B" = [("x", 11)] ∧
    interleavedRoundTrip.2 "B" = [("x", 10)] ∧
    ([("x", 10)] : Fields) ≠ [("x", 11)] :=
  ⟨by decide, by decide, by decide, by decide, by decide⟩

/-- C2 (amended): `undoLast()` immediately followed by `redoLast()` restores
the entity acted on to the exact field values it had before the undo — and in
fact restores the whole service and drawing — PROVIDED no record preceding
the one being undone is already in `undone` status (which a prior selective
undo can cause; then the redo would pick that earlier record instead), the
record is an update whose entity currently holds its later-state field
values, and applying a snapshot is a full field replacement. -/
theorem undo_redo_round_trip (s : UndoService) (h : Heap)
    (pre post : List DrawingAction) (r : DrawingAction) (ps ns : Snapshot)
    (hsplit : splitLastMatching (ablePred UndoStateEnum.restored none) s.actions
      = some (pre, r, post))
    (hop : r.cudOp = UndoCUDOpEnum.update)
    (hps : r.prevState = some ps)
    (hns : r.nextState = some ns)
    (hcur : h r.entityId = ns.val)
    (hrepl1 : objectAssign ns.val ps.val = ps.val)
    (hrepl2 : objectAssign ps.val ns.val = ns.val)
    (hpre : ∀ a ∈ pre, a.status ≠ UndoStateEnum.undone) :
    UndoService.redoLast (UndoService.undoLast s h none).1
        (UndoService.undoLast s h none).2.1 none = (s, h, []) ∧
    (UndoService.undoLast s h none).2.2 = [] := by
  obtain ⟨hact, hpr, _hpost⟩ := splitLastMatching_spec hsplit
  have hstatus : r.status = UndoStateEnum.restored := ablePred_status hpr
  have hu : UndoService.undoLast s h none =
      ({ s with actions := pre ++
          (⟨r.entityId, r.nextState, r.prevState, UndoStateEnum.undone,
            r.cudOp⟩ : DrawingAction) :: post },
        updateHeap h r.entityId ps.val, []) := by
    rw [UndoService.undoLast, hsplit]
    simp only [DrawingAction.switchStateM, hps, hcur, hrepl1, hop]
  refine ⟨?_, by rw [hu]⟩
  rw [hu]
  have hplast : ablePred UndoStateEnum.undone none
      (⟨r.entityId, r.nextState, r.prevState, UndoStateEnum.undone,
        r.cudOp⟩ : DrawingAction) = true := by
    simp [ablePred]
  have hpre' : ∀ a ∈ pre, ablePred UndoStateEnum.undone none a = false := by
    intro a ha
    have hne := hpre a ha
    simp [ablePred, hne]
  have hsplit2 := @splitFirstMatching_append DrawingAction
    (ablePred UndoStateEnum.undone none) pre post
    (⟨r.entityId, r.nextState, r.prevState, UndoStateEnum.undone,
      r.cudOp⟩ : DrawingAction) hpre' hplast
  rw [UndoService.redoLast]
  simp only []
  rw [hsplit2]
  simp only [DrawingAction.switchStateM, hns, hop, updateHeap_same,
    updateHeap_updateHeap, hrepl2]
  rw [updateHeap_self h r.entityId ns.val hcur]
  have hX : (⟨r.entityId, r.prevState, some ns, UndoStateEnum.restored,
      UndoCUDOpEnum.update⟩ : DrawingAction) = r := by
    rw [← hns, ← hop, ← hstatus]
  rw [hX, ← hact]

theorem storeOne_pending_nil (s : UndoService) (h : Heap) (e : String)
    (hp : s.pending = []) : UndoService.storeOne s h e = s := by
  rw [UndoService.storeOne, hp]
  rfl

theorem store_pending_nil (es : List String) (s : UndoService) (h : Heap)
    (hp : s.pending = []) : UndoService.store s h es = s := by
  have hfold : es.foldl (fun acc e => UndoService.storeOne acc h e) s = s := by
    induction es with
    | nil => rfl
    | cons e es ih =>
      rw [List.foldl_cons, storeOne_pending_nil s h e hp]
      exact ih
  rw [UndoService.store]
  simp only [hfold]
  rw [← hp]

/-- C9: `abort()` discards the staged records unconditionally, mutates no
entity (the drawing is returned unchanged and no callback fires), captures no
snapshot (the allocation counter is untouched), leaves the committed log
unchanged, and a subsequent `commit` (`store`) on any entity list is a
no-op. -/
theorem abort_discards_staging_only (s : UndoService) (h : Heap)
    (es : List String) :
    stepOp (s, h) Op.abortOp = ((UndoService.abort s, h), []) ∧
    (UndoService.abort s).pending = [] ∧
    (UndoService.abort s).actions = s.actions ∧
    (UndoService.abort s).nextRef = s.nextRef ∧
    (UndoService.abort s).maxActions = s.maxActions ∧
    UndoService.store (UndoService.abort s) h es = UndoService.abort s :=
  ⟨rfl, rfl, rfl, rfl, rfl, store_pending_nil es _ h rfl⟩

/-- C6: with `ids` omitted (`none`) or empty, `able` considers every
committed record with the required status; with a non-empty `ids` it
considers exactly the records whose tracked entity id is a member of `ids`
and which have the required status. -/
theorem able_filters_by_ids (s : UndoService) (status : UndoStateEnum)
    (l : List String) :
    UndoService.able s status none =
      s.actions.filter (fun x => x.status == status) ∧
    UndoService.able s status (some []) =
      s.actions.filter (fun x => x.status == status) ∧
    (l ≠ [] → UndoService.able s status (some l) =
      s.actions.filter (fun x => l.contains x.entityId && x.status == status)) := by
  refine ⟨rfl, rfl, fun hl => ?_⟩
  simp only [UndoService.able]
  rw [if_pos (List.length_pos.mpr hl)]

/-- C4: `undoLast` acts on the chronologically last record of the filtered
set with status `restored` while `redoLast` acts on the chronologically first
record of the filtered set with status `undone`; when the respective filtered
set is empty the call is a no-op. -/
theorem undo_last_redo_first (s : UndoService) (h : Heap)
    (ids : Option (List String)) :
    (UndoService.able s UndoStateEnum.restored ids = [] →
      UndoService.undoLast s h ids = (s, h, [])) ∧
    (∀ r, (UndoService.able s UndoStateEnum.restored ids).getLast? = some r →
      ∃ pre post,
        s.actions = pre ++ r :: post ∧
        (∀ a ∈ post, ablePred UndoStateEnum.restored ids a = false) ∧
        r.status = UndoStateEnum.restored ∧
        (UndoService.undoLast s h ids).1.actions =
          pre ++ (DrawingAction.switchStateM r h UndoStateEnum.undone).1 :: post ∧
        (UndoService.undoLast s h ids).2.1 =
          (DrawingAction.switchStateM r h UndoStateEnum.undone).2) ∧
    (UndoService.able s UndoStateEnum.undone ids = [] →
      UndoService.redoLast s h ids = (s, h, [])) ∧
    (∀ r, (UndoService.able s UndoStateEnum.undone ids).head? = some r →
      ∃ pre post,
        s.actions = pre ++ r :: post ∧
        (∀ a ∈ pre, ablePred UndoStateEnum.undone ids a = false) ∧
        r.status = UndoStateEnum.undone ∧
        (UndoService.redoLast s h ids).1.actions =
          pre ++ (DrawingAction.switchStateM r h UndoStateEnum.restored).1 :: post ∧
        (UndoService.redoLast s h ids).2.1 =
          (DrawingAction.switchStateM r h UndoStateEnum.restored).2) := by
  refine ⟨?_, ?_, ?_, ?_⟩
  · intro hable
    rw [able_eq_filter] at hable
    have hnone := splitLastMatching_eq_none.mpr hable
    rw [UndoService.undoLast, hnone]
  · intro r hLast
    rw [able_eq_filter] at hLast
    cases hs : splitLastMatching (ablePred UndoStateEnum.restored ids) s.actions with
    | none =>
      rw [splitLastMatching_eq_none.mp hs] at hLast
      exact absurd hLast (by simp)
    | some t =>
      obtain ⟨pre, x, post⟩ := t
      have hx : x = r := by
        have := filter_getLast_of_splitLast hs
        rw [this] at hLast
        exact Option.some.inj hLast
      subst hx
      obtain ⟨hact, hpx, hpost⟩ := splitLastMatching_spec hs
      refine ⟨pre, post, hact, hpost, ablePred_status hpx, ?_, ?_⟩
      · rw [UndoService.undoLast, hs]
      · rw [UndoService.undoLast, hs]
  · intro hable
    rw [able_eq_filter] at hable
    have hnone := splitFirstMatching_eq_none.mpr hable
    rw [UndoService.redoLast, hnone]
  · intro r hHead
    rw [able_eq_filter] at hHead
    cases hs : splitFirstMatching (ablePred UndoStateEnum.undone ids) s.actions with
    | none =>
      rw [splitFirstMatching_eq_none.mp hs] at hHead
      exact absurd hHead (by simp)
    | some t =>
      obtain ⟨pre, x, post⟩ := t
      have hx : x = r := by
        have := filter_head_of_splitFirst hs
        rw [this] at hHead
        exact Option.some.inj hHead
      subst hx
      obtain ⟨hact, hpx, hpre⟩ := splitFirstMatching_spec hs
      refine ⟨pre, post, hact, hpre, ablePred_status hpx, ?_, ?_⟩
      · rw [UndoService.redoLast, hs]
      · rw [UndoService.redoLast, hs]

/-- C5: for the record selected by `undoLast`, a `create` action invokes
`deleteRequested(entityId)`, a `delete` action invokes
`createRequested(entity)`, and an `update` action invokes no host callback;
`redoLast` uses the swapped polarity; and `begin([e], create)` followed
immediately by `undoLast()` invokes `deleteRequested(e.entityId)` exactly
once (the emitted event list is exactly that singleton). -/
theorem undo_redo_callbacks (s : UndoService) (h : Heap)
    (ids : Option (List String)) (r : DrawingAction) :
    ((UndoService.able s UndoStateEnum.restored ids).getLast? = some r →
      (r.cudOp = UndoCUDOpEnum.create →
        (UndoService.undoLast s h ids).2.2 = [Event.deleteReq r.entityId]) ∧
      (r.cudOp = UndoCUDOpEnum.delete →
        (UndoService.undoLast s h ids).2.2 =
          [Event.createReq r.entityId (h r.entityId)]) ∧
      (r.cudOp = UndoCUDOpEnum.update →
        (UndoService.undoLast s h ids).2.2 = [])) ∧
    ((UndoService.able s UndoStateEnum.undone ids).head? = some r →
      (r.cudOp = UndoCUDOpEnum.create →
        (UndoService.redoLast s h ids).2.2 =
          [Event.createReq r.entityId (h r.entityId)]) ∧
      (r.cudOp = UndoCUDOpEnum.delete →
        (UndoService.redoLast s h ids).2.2 = [Event.deleteReq r.entityId]) ∧
      (r.cudOp = UndoCUDOpEnum.update →
        (UndoService.redoLast s h ids).2.2 = [])) ∧
    (∀ (M : Int) (h0 : Heap) (e : String), 1 ≤ M →
      (UndoService.undoLast
        (UndoService.start (UndoService.make M) h0 [e] UndoCUDOpEnum.create)
        h0 none).2.2 = [Event.deleteReq e]) := by
  refine ⟨?_, ?_, ?_⟩
  · intro hLast
    rw [able_eq_filter] at hLast
    cases hs : splitLastMatching (ablePred UndoStateEnum.restored ids) s.actions with
    | none =>
      rw [splitLastMatching_eq_none.mp hs] at hLast
      exact absurd hLast (by simp)
    | some t =>
      obtain ⟨pre, x, post⟩ := t
      have hx : x = r := by
        have := filter_getLast_of_splitLast hs
        rw [this] at hLast
        exact Option.some.inj hLast
      subst hx
      refine ⟨fun hk => ?_, fun hk => ?_, fun hk => ?_⟩ <;>
        · rw [UndoService.undoLast, hs]
          simp only [hk]
  · intro hHead
    rw [able_eq_filter] at hHead
    cases hs : splitFirstMatching (ablePred UndoStateEnum.undone ids) s.actions with
    | none =>
      rw [splitFirstMatching_eq_none.mp hs] at hHead
      exact absurd hHead (by simp)
    | some t =>
      obtain ⟨pre, x, post⟩ := t
      have hx : x = r := by
        have := filter_head_of_splitFirst hs
        rw [this] at hHead
        exact Option.some.inj hHead
      subst hx
      refine ⟨fun hk => ?_, fun hk => ?_, fun hk => ?_⟩ <;>
        · rw [UndoService.redoLast, hs]
          simp only [hk]
  · intro M h0 e hM
    have hlt : ¬ (M < ((1 : Nat) : Int)) := by
      push_cast
      exact not_lt.mpr hM
    simp only [UndoService.start, List.foldl_cons, List.foldl_nil,
      UndoService.startOne, DrawingAction.make, cloneState,
      DrawingAction.storeM, jsNeqSnap, UndoService.storeAction,
      UndoService.checkMax, List.length_append, List.length_cons,
      List.length_nil]
    simp only [reduceCtorEq, ne_eq, not_false_iff, if_true, ite_true,
      ite_false, if_false]
    rw [if_neg (by simpa using hlt)]
    rw [UndoService.undoLast]
    simp [splitLastMatching, ablePred]

theorem storeAction_maxActions (s : UndoService) (a : DrawingAction) :
    (UndoService.storeAction s a).maxActions = s.maxActions := by
  simp only [UndoService.storeAction, UndoService.checkMax]
  split <;> rfl

theorem storeAction_actions_of_lt (s : UndoService) (a : DrawingAction)
    (N : Nat) (hmax : s.maxActions = (N : Int)) (hlen : s.actions.length < N) :
    (UndoService.storeAction s a).actions = s.actions ++ [a] := by
  simp only [UndoService.storeAction, UndoService.checkMax, hmax,
    List.length_append, List.length_cons, List.length_nil]
  rw [if_neg (by push_cast; omega)]

theorem storeAction_actions_of_eq (s : UndoService) (a : DrawingAction)
    (N : Nat) (hmax : s.maxActions = (N : Int)) (hlen : s.actions.length = N) :
    (UndoService.storeAction s a).actions = (s.actions ++ [a]).drop 1 := by
  simp only [UndoService.storeAction, UndoService.checkMax, hmax,
    List.length_append, List.length_cons, List.length_nil]
  rw [if_pos (by push_cast; omega)]

theorem storeMany_actions (N : Nat) (hN : 1 ≤ N) :
    ∀ (l : List DrawingAction) (s : UndoService),
      s.maxActions = (N : Int) → s.actions.length ≤ N →
      (storeMany s l).actions =
        (s.actions ++ l).drop ((s.actions ++ l).length - N) := by
  intro l
  induction l with
  | nil =>
    intro s hmax hlen
    simp [storeMany, Nat.sub_eq_zero_of_le hlen]
  | cons a l ih =>
    intro s hmax hlen
    have hmax' : (UndoService.storeAction s a).maxActions = (N : Int) := by
      rw [storeAction_maxActions, hmax]
    have hstep : storeMany s (a :: l) = storeMany (UndoService.storeAction s a) l := by
      rw [storeMany, List.foldl_cons, storeMany]
    rcases lt_or_eq_of_le hlen with hlt | heqN
    · have hact := storeAction_actions_of_lt s a N hmax hlt
      have hlen' : (UndoService.storeAction s a).actions.length ≤ N := by
        rw [hact]
        simp only [List.length_append, List.length_cons, List.length_nil]
        omega
      rw [hstep, ih _ hmax' hlen', hact]
      simp only [List.append_assoc, List.singleton_append]
    · have hact := storeAction_actions_of_eq s a N hmax heqN
      have hlenact : (UndoService.storeAction s a).actions.length = N := by
        rw [hact]
        simp only [List.length_drop, List.length_append, List.length_cons,
          List.length_nil]
        omega
      have hone : (1 : Nat) ≤ (s.actions ++ [a]).length := by
        simp only [List.length_append, List.length_cons, List.length_nil]
        omega
      have hlhsidx : ((s.actions ++ [a]).drop 1 ++ l).length - N = l.length := by
        simp only [List.length_append, List.length_drop, List.length_cons,
          List.length_nil]
        omega
      have hrhsidx : (s.actions ++ a :: l).length - N = l.length + 1 := by
        simp only [List.length_append, List.length_cons]
        omega
      have hlists : (s.actions ++ [a]) ++ l = s.actions ++ a :: l := by
        simp only [List.append_assoc, List.singleton_append]
      rw [hstep, ih _ hmax' (le_of_eq hlenact), hact, hlhsidx,
        ← List.drop_append_of_le_length hone, List.drop_drop, hlists, hrhsidx,
        Nat.add_comm 1 l.length]

/-- C3: for any `maxActions = N ≥ 1`, each append to the committed log keeps
it untouched while its length is below `N` and drops exactly the oldest
record (index 0) when the append makes the length exceed `N`; consequently,
starting from an empty service the committed log is always the suffix of the
most recent `N` appended records in chronological order, and after `N + 5`
commits its length is exactly `N`. -/
theorem committed_log_bounded (N : Nat) (hN : 1 ≤ N) (l : List DrawingAction) :
    (∀ (s : UndoService) (a : DrawingAction), s.maxActions = (N : Int) →
      s.actions.length = N →
      (UndoService.storeAction s a).actions = (s.actions ++ [a]).drop 1) ∧
    (∀ (s : UndoService) (a : DrawingAction), s.maxActions = (N : Int) →
      s.actions.length < N →
      (UndoService.storeAction s a).actions = s.actions ++ [a]) ∧
    (storeMany (UndoService.make (N : Int)) l).actions =
      l.drop (l.length - N) ∧
    (l.length = N + 5 →
      (storeMany (UndoService.make (N : Int)) l).actions = l.drop 5 ∧
      (storeMany (UndoService.make (N : Int)) l).actions.length = N) := by
  have hmain := storeMany_actions N hN l (UndoService.make (N : Int)) rfl
    (by simp [UndoService.make])
  have hmain' : (storeMany (UndoService.make (N : Int)) l).actions =
      l.drop (l.length - N) := by
    simpa [UndoService.make] using hmain
  refine ⟨fun s a hmax hlen => storeAction_actions_of_eq s a N hmax hlen,
    fun s a hmax hlen => storeAction_actions_of_lt s a N hmax hlen,
    hmain', fun hlen5 => ?_⟩
  constructor
  · rw [hmain', hlen5]
    congr 1
    omega
  · rw [hmain', List.length_drop]
    omega

theorem storeAction_nonpos (s : UndoService) (a : DrawingAction)
    (hmax : s.maxActions ≤ 0) (hact : s.actions = []) :
    (UndoService.storeAction s a).actions = [] := by
  simp only [UndoService.storeAction, UndoService.checkMax, hact,
    List.nil_append, List.length_cons, List.length_nil]
  rw [if_pos (by push_cast; omega)]
  rfl

theorem startOne_nonpos (s : UndoService) (h : Heap) (k : UndoCUDOpEnum)
    (e : String) (hmax : s.maxActions ≤ 0) (hact : s.actions = []) :
    (UndoService.startOne s h k e).actions = [] ∧
    (UndoService.startOne s h k e).maxActions = s.maxActions := by
  simp only [UndoService.startOne, DrawingAction.make, cloneState,
    DrawingAction.storeM, jsNeqSnap]
  by_cases hk : k ≠ UndoCUDOpEnum.update
  · rw [if_pos hk]
    exact ⟨storeAction_nonpos _ _ hmax hact, by rw [storeAction_maxActions]⟩
  · rw [if_neg hk]
    exact ⟨hact, rfl⟩

theorem start_nonpos (es : List String) (s : UndoService) (h : Heap)
    (k : UndoCUDOpEnum) (hmax : s.maxActions ≤ 0) (hact : s.actions = []) :
    (UndoService.start s h es k).actions = [] ∧
    (UndoService.start s h es k).maxActions = s.maxActions := by
  induction es generalizing s with
  | nil => exact ⟨hact, rfl⟩
  | cons e es ih =>
    rw [UndoService.start, List.foldl_cons]
    obtain ⟨h1, h2⟩ := startOne_nonpos s h k e hmax hact
    have := ih (UndoService.startOne s h k e) (by rw [h2]; exact hmax) h1
    rw [UndoService.start] at this
    exact ⟨this.1, by rw [this.2, h2]⟩

theorem storeOne_nonpos (s : UndoService) (h : Heap) (e : String)
    (hmax : s.maxActions ≤ 0) (hact : s.actions = []) :
    (UndoService.storeOne s h e).actions = [] ∧
    (UndoService.storeOne s h e).maxActions = s.maxActions := by
  rw [UndoService.storeOne]
  cases hf : s.pending.find? (fun x => x.entityId == e) with
  | none => exact ⟨hact, rfl⟩
  | some a =>
    simp only [DrawingAction.storeM, cloneState]
    split
    · exact ⟨storeAction_nonpos _ _ hmax hact, by rw [storeAction_maxActions]⟩
    · exact ⟨hact, rfl⟩

theorem store_nonpos (es : List String) (s : UndoService) (h : Heap)
    (hmax : s.maxActions ≤ 0) (hact : s.actions = []) :
    (UndoService.store s h es).actions = [] ∧
    (UndoService.store s h es).maxActions = s.maxActions := by
  rw [UndoService.store]
  suffices hsuf : (es.foldl (fun acc e => UndoService.storeOne acc h e) s).actions = [] ∧
      (es.foldl (fun acc e => UndoService.storeOne acc h e) s).maxActions = s.maxActions by
    exact hsuf
  induction es generalizing s with
  | nil => exact ⟨hact, rfl⟩
  | cons e es ih =>
    rw [List.foldl_cons]
    obtain ⟨h1, h2⟩ := storeOne_nonpos s h e hmax hact
    have := ih (UndoService.storeOne s h e) (by rw [h2]; exact hmax) h1
    exact ⟨this.1, by rw [this.2, h2]⟩

theorem undoLast_actions_nil (s : UndoService) (h : Heap)
    (ids : Option (List String)) (hact : s.actions = []) :
    UndoService.undoLast s h ids = (s, h, []) := by
  rw [UndoService.undoLast, hact]
  rfl

theorem redoLast_actions_nil (s : UndoService) (h : Heap)
    (ids : Option (List String)) (hact : s.actions = []) :
    UndoService.redoLast s h ids = (s, h, []) := by
  rw [UndoService.redoLast, hact]
  rfl

theorem stepOp_nonpos (s : UndoService) (h : Heap) (op : Op)
    (hmax : s.maxActions ≤ 0) (hact : s.actions = []) :
    (stepOp (s, h) op).1.1.actions = [] ∧
    (stepOp (s, h) op).1.1.maxActions = s.maxActions := by
  cases op with
  | start es k => exact start_nonpos es s h k hmax hact
  | commit es => exact store_nonpos es s h hmax hact
  | abortOp => exact ⟨hact, rfl⟩
  | clearOp => exact ⟨rfl, rfl⟩
  | undo ids =>
    have hno := undoLast_actions_nil s h ids hact
    exact ⟨by simp [stepOp, hno, hact], by simp [stepOp, hno]⟩
  | redo ids =>
    have hno := redoLast_actions_nil s h ids hact
    exact ⟨by simp [stepOp, hno, hact], by simp [stepOp, hno]⟩
  | modify e fs => exact ⟨hact, rfl⟩

theorem runOps_nonpos (ops : List Op) (s : UndoService) (h : Heap)
    (hmax : s.maxActions ≤ 0) (hact : s.actions = []) :
    (runOps (s, h) ops).1.actions = [] ∧
    (runOps (s, h) ops).1.maxActions = s.maxActions := by
  induction ops generalizing s h with
  | nil => exact ⟨hact, rfl⟩
  | cons op ops ih =>
    rw [runOps]
    obtain ⟨h1, h2⟩ := stepOp_nonpos s h op hmax hact
    have := ih (stepOp (s, h) op).1.1 (stepOp (s, h) op).1.2
      (by rw [h2]; exact hmax) h1
    exact ⟨this.1, by rw [this.2, h2]⟩

/-- C8: the constructor accepts any `maxActions`; with a zero or negative
value the manager behaves as if no history is kept — after any sequence of
operations (begin, commit, abort, clear, undo, redo, host edits) the
committed log is empty, so `undoLast` and `redoLast` are always no-ops. -/
theorem nonpositive_max_keeps_no_history (M : Int) (hM : M ≤ 0)
    (ops : List Op) (h : Heap) (ids : Option (List String)) :
    (runOps (UndoService.make M, h) ops).1.actions = [] ∧
    UndoService.undoLast (runOps (UndoService.make M, h) ops).1
        (runOps (UndoService.make M, h) ops).2 ids =
      ((runOps (UndoService.make M, h) ops).1,
       (runOps (UndoService.make M, h) ops).2, []) ∧
    UndoService.redoLast (runOps (UndoService.make M, h) ops).1
        (runOps (UndoService.make M, h) ops).2 ids =
      ((runOps (UndoService.make M, h) ops).1,
       (runOps (UndoService.make M, h) ops).2, []) := by
  obtain ⟨h1, _⟩ := runOps_nonpos ops (UndoService.make M) h hM rfl
  exact ⟨h1, undoLast_actions_nil _ _ ids h1, redoLast_actions_nil _ _ ids h1⟩

theorem storeAction_pending (s : UndoService) (a : DrawingAction) :
    (UndoService.storeAction s a).pending = s.pending := by
  simp only [UndoService.storeAction, UndoService.checkMax]
  split <;> rfl

theorem mem_storeAction {s : UndoService} {a b : DrawingAction}
    (hb : b ∈ (UndoService.storeAction s a).actions) : b ∈ s.actions ∨ b = a := by
  simp only [UndoService.storeAction, UndoService.checkMax] at hb
  have hb' : b ∈ s.actions ++ [a] := by
    split at hb
    · exact List.drop_subset 1 _ hb
    · exact hb
  rcases List.mem_append.mp hb' with h1 | h1
  · exact Or.inl h1
  · exact Or.inr (List.mem_singleton.mp h1)

theorem startOne_good (s : UndoService) (h : Heap) (k : UndoCUDOpEnum)
    (e : String)
    (hA : ∀ a ∈ s.actions, a.status ≠ UndoStateEnum.pending)
    (hP : ∀ a ∈ s.pending, a.status = UndoStateEnum.pending) :
    (∀ a ∈ (UndoService.startOne s h k e).actions,
      a.status ≠ UndoStateEnum.pending) ∧
    (∀ a ∈ (UndoService.startOne s h k e).pending,
      a.status = UndoStateEnum.pending) := by
  simp only [UndoService.startOne, DrawingAction.make, cloneState,
    DrawingAction.storeM, jsNeqSnap]
  by_cases hk : k ≠ UndoCUDOpEnum.update
  · rw [if_pos hk]
    refine ⟨?_, fun b hb => hP b (by rw [storeAction_pending] at hb; exact hb)⟩
    intro b hb
    rcases mem_storeAction hb with h1 | h1
    · exact hA b h1
    · rw [h1]
      simp
  · rw [if_neg hk]
    refine ⟨fun b hb => hA b hb, ?_⟩
    intro b hb
    rcases List.mem_append.mp hb with h1 | h1
    · exact hP b h1
    · rw [List.mem_singleton.mp h1]

theorem start_good (es : List String) (s : UndoService) (h : Heap)
    (k : UndoCUDOpEnum)
    (hA : ∀ a ∈ s.actions, a.status ≠ UndoStateEnum.pending)
    (hP : ∀ a ∈ s.pending, a.status = UndoStateEnum.pending) :
    (∀ a ∈ (UndoService.start s h es k).actions,
      a.status ≠ UndoStateEnum.pending) ∧
    (∀ a ∈ (UndoService.start s h es k).pending,
      a.status = UndoStateEnum.pending) := by
  induction es generalizing s with
  | nil => exact ⟨hA, hP⟩
  | cons e es ih =>
    rw [UndoService.start, List.foldl_cons]
    obtain ⟨h1, h2⟩ := startOne_good s h k e hA hP
    have hrec := ih (UndoService.startOne s h k e) h1 h2
    rw [UndoService.start] at hrec
    exact hrec

theorem storeOne_actions_good (s : UndoService) (h : Heap) (e : String)
    (hA : ∀ a ∈ s.actions, a.status ≠ UndoStateEnum.pending) :
    ∀ b ∈ (UndoService.storeOne s h e).actions,
      b.status ≠ UndoStateEnum.pending := by
  rw [UndoService.storeOne]
  cases hf : s.pending.find? (fun x => x.entityId == e) with
  | none => exact hA
  | some a =>
    simp only [DrawingAction.storeM, cloneState]
    split
    · intro b hb
      rcases mem_storeAction hb with h1 | h1
      · exact hA b h1
      · rw [h1]
        simp
    · exact hA

theorem store_good (es : List String) (s : UndoService) (h : Heap)
    (hA : ∀ a ∈ s.actions, a.status ≠ UndoStateEnum.pending) :
    (∀ a ∈ (UndoService.store s h es).actions,
      a.status ≠ UndoStateEnum.pending) ∧
    (∀ a ∈ (UndoService.store s h es).pending,
      a.status = UndoStateEnum.pending) := by
  rw [UndoService.store]
  refine ⟨?_, by intro b hb; simp at hb⟩
  suffices hsuf : ∀ (s : UndoService),
      (∀ a ∈ s.actions, a.status ≠ UndoStateEnum.pending) →
      ∀ b ∈ (es.foldl (fun acc e => UndoService.storeOne acc h e) s).actions,
        b.status ≠ UndoStateEnum.pending from hsuf s hA
  clear hA
  induction es with
  | nil => intro s hA; exact hA
  | cons e es ih =>
    intro s hA
    rw [List.foldl_cons]
    exact ih _ (storeOne_actions_good s h e hA)

theorem undoLast_good (s : UndoService) (h : Heap) (ids : Option (List String))
    (hA : ∀ a ∈ s.actions, a.status ≠ UndoStateEnum.pending) :
    (∀ b ∈ (UndoService.undoLast s h ids).1.actions,
      b.status ≠ UndoStateEnum.pending) ∧
    (UndoService.undoLast s h ids).1.pending = s.pending := by
  cases hs : splitLastMatching (ablePred UndoStateEnum.restored ids) s.actions with
  | none =>
    rw [UndoService.undoLast, hs]
    exact ⟨hA, rfl⟩
  | some t =>
    obtain ⟨pre, x, post⟩ := t
    obtain ⟨hact, _, _⟩ := splitLastMatching_spec hs
    rw [UndoService.undoLast, hs]
    simp only [DrawingAction.switchStateM]
    refine ⟨?_, by trivial⟩
    intro b hb
    rcases List.mem_append.mp hb with h1 | h1
    · exact hA b (hact ▸ List.mem_append.mpr (Or.inl h1))
    · rcases List.mem_cons.mp h1 with h2 | h2
      · rw [h2]
        simp
      · exact hA b (hact ▸ List.mem_append.mpr (Or.inr (List.mem_cons_of_mem x h2)))

theorem redoLast_good (s : UndoService) (h : Heap) (ids : Option (List String))
    (hA : ∀ a ∈ s.actions, a.status ≠ UndoStateEnum.pending) :
    (∀ b ∈ (UndoService.redoLast s h ids).1.actions,
      b.status ≠ UndoStateEnum.pending) ∧
    (UndoService.redoLast s h ids).1.pending = s.pending := by
  cases hs : splitFirstMatching (ablePred UndoStateEnum.undone ids) s.actions with
  | none =>
    rw [UndoService.redoLast, hs]
    exact ⟨hA, rfl⟩
  | some t =>
    obtain ⟨pre, x, post⟩ := t
    obtain ⟨hact, _, _⟩ := splitFirstMatching_spec hs
    rw [UndoService.redoLast, hs]
    simp only [DrawingAction.switchStateM]
    refine ⟨?_, by trivial⟩
    intro b hb
    rcases List.mem_append.mp hb with h1 | h1
    · exact hA b (hact ▸ List.mem_append.mpr (Or.inl h1))
    · rcases List.mem_cons.mp h1 with h2 | h2
      · rw [h2]
        simp
      · exact hA b (hact ▸ List.mem_append.mpr (Or.inr (List.mem_cons_of_mem x h2)))

theorem stepOp_good (s : UndoService) (h : Heap) (op : Op)
    (hA : ∀ a ∈ s.actions, a.status ≠ UndoStateEnum.pending)
    (hP : ∀ a ∈ s.pending, a.status = UndoStateEnum.pending) :
    (∀ a ∈ (stepOp (s, h) op).1.1.actions,
      a.status ≠ UndoStateEnum.pending) ∧
    (∀ a ∈ (stepOp (s, h) op).1.1.pending,
      a.status = UndoStateEnum.pending) := by
  cases op with
  | start es k => exact start_good es s h k hA hP
  | commit es => exact store_good es s h hA
  | abortOp => exact ⟨hA, by intro b hb; simp [UndoService.abort, stepOp] at hb⟩
  | clearOp =>
    constructor
    · intro b hb
      simp [UndoService.clear, stepOp] at hb
    · intro b hb
      simp [UndoService.clear, stepOp] at hb
  | undo ids =>
    obtain ⟨h1, h2⟩ := undoLast_good s h ids hA
    exact ⟨h1, by rw [show (stepOp (s, h) (Op.undo ids)).1.1 =
      (UndoService.undoLast s h ids).1 from rfl, h2]; exact hP⟩
  | redo ids =>
    obtain ⟨h1, h2⟩ := redoLast_good s h ids hA
    exact ⟨h1, by rw [show (stepOp (s, h) (Op.redo ids)).1.1 =
      (UndoService.redoLast s h ids).1 from rfl, h2]; exact hP⟩
  | modify e fs => exact ⟨hA, hP⟩

theorem runOps_good (ops : List Op) (s : UndoService) (h : Heap)
    (hA : ∀ a ∈ s.actions, a.status ≠ UndoStateEnum.pending)
    (hP : ∀ a ∈ s.pending, a.status = UndoStateEnum.pending) :
    (∀ a ∈ (runOps (s, h) ops).1.actions,
      a.status ≠ UndoStateEnum.pending) ∧
    (∀ a ∈ (runOps (s, h) ops).1.pending,
      a.status = UndoStateEnum.pending) := by
  induction ops generalizing s h with
  | nil => exact ⟨hA, hP⟩
  | cons op ops ih =>
    rw [runOps]
    obtain ⟨h1, h2⟩ := stepOp_good s h op hA hP
    exact ih (stepOp (s, h) op).1.1 (stepOp (s, h) op).1.2 h1 h2

/-- C10: invariant kept by every operation sequence — no record in the
committed log ever has status `pending`; records with status `pending` exist
only in the staging array (every staged record has status `pending`, and
committed records only ever carry `restored` or `undone`). -/
theorem no_pending_in_committed (M : Int) (ops : List Op) (h : Heap) :
    (∀ a ∈ (runOps (UndoService.make M, h) ops).1.actions,
      a.status ≠ UndoStateEnum.pending) ∧
    (∀ a ∈ (runOps (UndoService.make M, h) ops).1.pending,
      a.status = UndoStateEnum.pending) :=
  runOps_good ops (UndoService.make M) h
    (by intro a ha; simp [UndoService.make] at ha)
    (by intro a ha; simp [UndoService.make] at ha)

theorem ablePred_single {status : UndoStateEnum} {i : String}
    {x : DrawingAction} (hp : ablePred status (some [i]) x = true) :
    x.entityId = i ∧ x.status = status := by
  simp [ablePred] at hp
  exact hp

theorem switchStateM_heap_other (a : DrawingAction) (h : Heap)
    (st : UndoStateEnum) (e : String) (hne : e ≠ a.entityId) :
    (DrawingAction.switchStateM a h st).2 e = h e := by
  simp only [DrawingAction.switchStateM]
  exact updateHeap_other h a.entityId e _ hne

/-- C7: selective undo leaves non-selected entities untouched —
`undoLast([idA])` never changes the drawing at any entity other than `idA`
and never changes a committed record tracking another entity (same position,
same status); and in the two-entity scenario (records `ra` for `A` and `rb`
for `B`, both committed updates with status `restored`) it reverts exactly
`A`'s fields to their prior values, flips only `ra` to `undone`, keeps `rb`
and `B`'s fields unchanged and fires no callback. -/
theorem selective_undo_frame (s : UndoService) (h : Heap) (idA : String) :
    ((∀ e, e ≠ idA → (UndoService.undoLast s h (some [idA])).2.1 e = h e) ∧
     (∀ (i : Nat) (a : DrawingAction), s.actions[i]? = some a →
        a.entityId ≠ idA →
        (UndoService.undoLast s h (some [idA])).1.actions[i]? = some a)) ∧
    (∀ (ra rb : DrawingAction) (ps : Snapshot),
      s.actions = [ra, rb] →
      ra.entityId = idA →
      rb.entityId ≠ idA →
      ra.status = UndoStateEnum.restored →
      rb.status = UndoStateEnum.restored →
      ra.cudOp = UndoCUDOpEnum.update →
      ra.prevState = some ps →
      objectAssign (h idA) ps.val = ps.val →
      (UndoService.undoLast s h (some [idA])).1.actions =
        [⟨idA, ra.nextState, ra.prevState, UndoStateEnum.undone, ra.cudOp⟩, rb] ∧
      (UndoService.undoLast s h (some [idA])).2.1 idA = ps.val ∧
      (UndoService.undoLast s h (some [idA])).2.1 rb.entityId = h rb.entityId ∧
      (UndoService.undoLast s h (some [idA])).2.2 = []) := by
  constructor
  · cases hs : splitLastMatching (ablePred UndoStateEnum.restored (some [idA]))
        s.actions with
    | none =>
      have hu : UndoService.undoLast s h (some [idA]) = (s, h, []) := by
        rw [UndoService.undoLast, hs]
      rw [hu]
      exact ⟨fun e _ => rfl, fun i a hia _ => hia⟩
    | some t =>
      obtain ⟨pre, x, post⟩ := t
      obtain ⟨hact, hpx, _⟩ := splitLastMatching_spec hs
      obtain ⟨hxid, _⟩ := ablePred_single hpx
      have hheap : (UndoService.undoLast s h (some [idA])).2.1 =
          (DrawingAction.switchStateM x h UndoStateEnum.undone).2 := by
        rw [UndoService.undoLast, hs]
      have hacts : (UndoService.undoLast s h (some [idA])).1.actions =
          pre ++ (DrawingAction.switchStateM x h UndoStateEnum.undone).1 :: post := by
        rw [UndoService.undoLast, hs]
      constructor
      · intro e hne
        rw [hheap]
        exact switchStateM_heap_other x h UndoStateEnum.undone e (by rw [hxid]; exact hne)
      · intro i a hia hne
        rw [hacts]
        rw [hact, List.getElem?_append] at hia
        rw [List.getElem?_append]
        by_cases hi : i < pre.length
        · rw [if_pos hi] at hia ⊢
          exact hia
        · rw [if_neg hi] at hia ⊢
          cases hk : i - pre.length with
          | zero =>
            rw [hk, List.getElem?_cons_zero] at hia
            exact absurd (by rw [← Option.some.inj hia, hxid]) hne
          | succ k =>
            rw [hk, List.getElem?_cons_succ] at hia
            rw [List.getElem?_cons_succ]
            exact hia
  · intro ra rb ps hact hidA hidB hstA hstB hopA hpsA hrepl
    have hpra : ablePred UndoStateEnum.restored (some [idA]) ra = true := by
      simp [ablePred, hidA, hstA]
    have hprb : ablePred UndoStateEnum.restored (some [idA]) rb = false := by
      simp [ablePred, hidB]
    have hs : splitLastMatching (ablePred UndoStateEnum.restored (some [idA]))
        s.actions = some ([], ra, [rb]) := by
      rw [hact]
      simp [splitLastMatching, hpra, hprb]
    refine ⟨?_, ?_, ?_, ?_⟩
    · rw [UndoService.undoLast, hs]
      simp [DrawingAction.switchStateM, hidA]
    · rw [UndoService.undoLast, hs]
      have : (DrawingAction.switchStateM ra h UndoStateEnum.undone).2 idA = ps.val := by
        simp only [DrawingAction.switchStateM, hpsA, hidA]
        rw [hrepl]
        exact updateHeap_same h idA ps.val
      exact this
    · rw [UndoService.undoLast, hs]
      exact switchStateM_heap_other ra h UndoStateEnum.undone rb.entityId
        (by rw [hidA]; exact hidB)
    · rw [UndoService.undoLast, hs]
      simp [hopA]

/-! ### Witnesses -/

/-- Witness for the amended C2 round trip at a concrete one-record input. -/
theorem undo_redo_round_trip_witness :
    UndoService.redoLast (UndoService.undoLast wSvc heapOne none).1
        (UndoService.undoLast wSvc heapOne none).2.1 none =
      (wSvc, heapOne, []) ∧
    (UndoService.undoLast wSvc heapOne none).2.2 = [] :=
  undo_redo_round_trip wSvc heapOne [] [] wAct ⟨0, [("x", 0)]⟩ ⟨1, [("x", 1)]⟩
    (by decide) rfl rfl rfl rfl (by decide) (by decide) (by simp)

/-- Witness for C3 with `N = 1` and six commits. -/
theorem committed_log_bounded_witness :
    (storeMany (UndoService.make ((1 : Nat) : Int)) wActs6).actions =
      wActs6.drop 5 ∧
    (storeMany (UndoService.make ((1 : Nat) : Int)) wActs6).actions.length = 1 :=
  (committed_log_bounded 1 (by decide) wActs6).2.2.2 (by decide)

/-- Witness for C4: undo acts on the (only) restored record, and redo on an
empty filtered set is a no-op. -/
theorem undo_last_redo_first_witness :
    (∃ pre post,
      wSvc4.actions = pre ++ wAct4 :: post ∧
      (∀ a ∈ post, ablePred UndoStateEnum.restored none a = false) ∧
      wAct4.status = UndoStateEnum.restored ∧
      (UndoService.undoLast wSvc4 heapOne none).1.actions =
        pre ++ (DrawingAction.switchStateM wAct4 heapOne UndoStateEnum.undone).1
          :: post ∧
      (UndoService.undoLast wSvc4 heapOne none).2.1 =
        (DrawingAction.switchStateM wAct4 heapOne UndoStateEnum.undone).2) ∧
    UndoService.redoLast wSvc4 heapOne none = (wSvc4, heapOne, []) :=
  ⟨(undo_last_redo_first wSvc4 heapOne none).2.1 wAct4 (by decide),
   (undo_last_redo_first wSvc4 heapOne none).2.2.1 (by decide)⟩

/-- Witness for C5: undoing a create fires the delete request, both for a
stored record and through the begin-then-undo pipeline. -/
theorem undo_redo_callbacks_witness :
    (UndoService.undoLast wSvc5 heapOne none).2.2 = [Event.deleteReq "c"] ∧
    (UndoService.undoLast
      (UndoService.start (UndoService.make 7) heapOne ["a"] UndoCUDOpEnum.create)
      heapOne none).2.2 = [Event.deleteReq "a"] :=
  ⟨((undo_redo_callbacks wSvc5 heapOne none wAct5).1 (by decide)).1 rfl,
   (undo_redo_callbacks wSvc5 heapOne none wAct5).2.2 7 heapOne "a" (by decide)⟩

/-- Witness for C6 at a non-empty id list. -/
theorem able_filters_by_ids_witness :
    UndoService.able (UndoService.make 4) UndoStateEnum.restored (some ["a"]) =
      (UndoService.make 4).actions.filter
        (fun x => (["a"] : List String).contains x.entityId &&
          x.status == UndoStateEnum.restored) :=
  (able_filters_by_ids (UndoService.make 4) UndoStateEnum.restored ["a"]).2.2
    (by decide)

/-- Witness for C7 in the concrete two-entity drawing. -/
theorem selective_undo_frame_witness :
    (UndoService.undoLast wSvc7 wHeap7 (some ["A"])).2.1 "B" = wHeap7 "B" ∧
    ((UndoService.undoLast wSvc7 wHeap7 (some ["A"])).1.actions =
      [⟨"A", wRa.nextState, wRa.prevState, UndoStateEnum.undone, wRa.cudOp⟩,
        wRb] ∧
     (UndoService.undoLast wSvc7 wHeap7 (some ["A"])).2.1 "A" = [("x", 0)] ∧
     (UndoService.undoLast wSvc7 wHeap7 (some ["A"])).2.1 wRb.entityId =
       wHeap7 wRb.entityId ∧
     (UndoService.undoLast wSvc7 wHeap7 (some ["A"])).2.2 = []) :=
  ⟨(selective_undo_frame wSvc7 wHeap7 "A").1.1 "B" (by decide),
   (selective_undo_frame wSvc7 wHeap7 "A").2 wRa wRb ⟨0, [("x", 0)]⟩ rfl rfl
     (by decide) rfl rfl rfl rfl (by decide)⟩

/-- Witness for C8 with `maxActions = 0` and a create operation. -/
theorem nonpositive_max_keeps_no_history_witness :
    (runOps (UndoService.make 0, heapOne)
      [Op.start ["a"] UndoCUDOpEnum.create]).1.actions = [] ∧
    UndoService.undoLast
        (runOps (UndoService.make 0, heapOne)
          [Op.start ["a"] UndoCUDOpEnum.create]).1
        (runOps (UndoService.make 0, heapOne)
          [Op.start ["a"] UndoCUDOpEnum.create]).2 none =
      ((runOps (UndoService.make 0, heapOne)
          [Op.start ["a"] UndoCUDOpEnum.create]).1,
       (runOps (UndoService.make 0, heapOne)
          [Op.start ["a"] UndoCUDOpEnum.create]).2, []) ∧
    UndoService.redoLast
        (runOps (UndoService.make 0, heapOne)
          [Op.start ["a"] UndoCUDOpEnum.create]).1
        (runOps (UndoService.make 0, heapOne)
          [Op.start ["a"] UndoCUDOpEnum.create]).2 none =
      ((runOps (UndoService.make 0, heapOne)
          [Op.start ["a"] UndoCUDOpEnum.create]).1,
       (runOps (UndoService.make 0, heapOne)
          [Op.start ["a"] UndoCUDOpEnum.create]).2, []) :=
  nonpositive_max_keeps_no_history 0 (by decide)
    [Op.start ["a"] UndoCUDOpEnum.create] heapOne none

/-- Witness for C10 on the record committed by a create. -/
theorem no_pending_in_committed_witness :
    wC10act ∈ (runOps (UndoService.make 5, heapOne)
      [Op.start ["a"] UndoCUDOpEnum.create]).1.actions ∧
    wC10act.status ≠ UndoStateEnum.pending :=
  ⟨by decide,
   (no_pending_in_committed 5 [Op.start ["a"] UndoCUDOpEnum.create] heapOne).1
     wC10act (by decide)⟩

end UndoRedo
